import Mathlib

/-!
Shallow embedding of `pydantic_stack_core/core.py`.

The module defines three things:
* class `RenderablePiece`, whose abstract `render` raises
  `NotImplementedError(f"{self.__class__.__name__} must implement render() method")`
  when a concrete type never supplied an override;
* class `MetaStack` with fields `pieces : List[RenderablePiece]`
  (default: fresh empty list) and `separator : str` (default: the source
  literal `"\\n"`, which in Python denotes the two-character string
  backslash–n), and methods `render`, `add_piece`, `insert_piece`;
* the function `generate_output_from_metastack`.

Fallible Python code (a method that can raise) is embedded as a function
into `Except PyError _`; the mutating methods `add_piece` and `insert_piece`
are embedded as functions returning the post-state of the stack.
-/

/-- Exceptions the embedded code can raise.  The only exception raised by
code in `core.py` itself is `NotImplementedError` (from the abstract
`RenderablePiece.render` body). -/
inductive PyError where
  | notImplementedError (msg : String)
deriving DecidableEq

/-- A `RenderablePiece` instance as `MetaStack` observes it.  The base class
mandates a single operation, `render`.  A `concrete` piece is an instance of
a subtype that supplied a `render` override; per the contract that override
is a pure function of the instance's validated fields, so the instance is
characterised, for the stack's purposes, by the string `rendered` it renders
to.  A `noOverride` piece is an instance of a type (of name `className`,
Python's `self.__class__.__name__`) that never overrode `render`, so calling
`render` runs the inherited abstract body. -/
inductive RenderablePiece where
  | concrete (rendered : String)
  | noOverride (className : String)
deriving DecidableEq

/-- Embeds `RenderablePiece.render` (core.py lines 55-80).  A concrete
override returns its string; the abstract body executes
`raise NotImplementedError(f"{self.__class__.__name__} must implement render() method")`. -/
def RenderablePiece.render : RenderablePiece → Except PyError String
  | .concrete rendered => .ok rendered
  | .noOverride className =>
      .error (.notImplementedError (className ++ " must implement render() method"))

/-- Embeds Python's `sep.join(strs)`: the elements of `strs` concatenated
with `sep` between consecutive elements, not before the first and not after
the last; the join of an empty list is `""`. -/
def strJoin (sep : String) : List String → String
  | [] => ""
  | [s] => s
  | s :: rest => s ++ sep ++ strJoin sep rest

/-- Embeds class `MetaStack` (core.py lines 83-188): an ordered list of
pieces plus a separator string. -/
structure MetaStack where
  pieces : List RenderablePiece
  separator : String
deriving DecidableEq

/-- Embeds `MetaStack()` with both fields defaulted: `pieces` gets a fresh
empty list (`default_factory=list`) and `separator` gets the source default
`default="\\n"` — in Python a normal (non-raw) string literal denoting the
TWO-character string backslash–n, not a newline. -/
def MetaStack.mkDefault : MetaStack :=
  { pieces := [], separator := "\\n" }

/-- Embeds `MetaStack.render` (core.py lines 135-163):
`if not self.pieces: return ""` then
`rendered_pieces = [piece.render() for piece in self.pieces]` (a list
comprehension propagates the first exception raised, so `List.mapM` over
`Except` matches) and `return self.separator.join(rendered_pieces)`. -/
def MetaStack.render (self : MetaStack) : Except PyError String :=
  if self.pieces.isEmpty then .ok ""
  else do
    let rendered_pieces ← self.pieces.mapM RenderablePiece.render
    pure (strJoin self.separator rendered_pieces)

/-- Embeds `MetaStack.add_piece` (core.py lines 165-175):
`self.pieces.append(piece)`.  Returns the post-state. -/
def MetaStack.add_piece (self : MetaStack) (piece : RenderablePiece) : MetaStack :=
  { self with pieces := self.pieces ++ [piece] }

/-- Embeds CPython `list.insert(index, x)` (`ins1` in `listobject.c`): a
negative `index` is taken relative to the end and clamped to the front, an
`index` beyond the length is clamped to the end; the function never raises. -/
def pyListInsert (l : List α) (index : Int) (x : α) : List α :=
  let n : Int := l.length
  let w1 : Int := if index < 0 then index + n else index
  let w2 : Int := if w1 < 0 then 0 else w1
  let w3 : Int := if w2 > n then n else w2
  l.take w3.toNat ++ x :: l.drop w3.toNat

/-- Embeds `MetaStack.insert_piece` (core.py lines 177-188):
`self.pieces.insert(index, piece)`.  Returns the post-state. -/
def MetaStack.insert_piece (self : MetaStack) (index : Int)
    (piece : RenderablePiece) : MetaStack :=
  { self with pieces := pyListInsert self.pieces index piece }

/-- Embeds `generate_output_from_metastack` (core.py lines 191-223):
`return meta_stack.render()`. -/
def generate_output_from_metastack (meta_stack : MetaStack) : Except PyError String :=
  meta_stack.render

/-- State-passing embedding of the body of `MetaStack.render`, used to state
that the method writes none of the instance's fields: each read of `self`
goes through `get`, and the translation contains no `set` because the Python
body contains no assignment to `self.pieces` or `self.separator`. -/
def MetaStack.renderM : StateM MetaStack (Except PyError String) := do
  let self ← get
  if self.pieces.isEmpty then
    pure (.ok "")
  else
    match self.pieces.mapM RenderablePiece.render with
    | .error e => pure (.error e)
    | .ok rendered_pieces => do
        let selfAgain ← get
        pure (.ok (strJoin selfAgain.separator rendered_pieces))

/-- Number of positions of `l` at which `sub` occurs as a contiguous block
(occurrences may overlap). -/
def countOccAux (sub : List Char) : List Char → Nat
  | [] => 0
  | c :: rest => (if sub.isPrefixOf (c :: rest) then 1 else 0) + countOccAux sub rest

/-- Number of positions of `s` at which the string `sub` occurs. -/
def strOccCount (sub s : String) : Nat := countOccAux sub.data s.data

/-- Whether `p` is a leading substring of `s`. -/
def strStarts (p s : String) : Bool := p.data.isPrefixOf s.data

/-- Whether `p` is a trailing substring of `s`. -/
def strEnds (p s : String) : Bool := p.data.isSuffixOf s.data

/-- Character-list counterpart of `strJoin`, used to reason about the
characters of a join. -/
def joinChar (sep : List Char) : List (List Char) → List Char
  | [] => []
  | [s] => s
  | s :: rest => s ++ sep ++ joinChar sep rest

lemma str_data_append (a b : String) : (a ++ b).data = a.data ++ b.data := rfl

lemma strJoin_data (sep : String) (l : List String) :
    (strJoin sep l).data = joinChar sep.data (l.map String.data) := by
  induction l with
  | nil => rfl
  | cons s rest ih =>
    cases rest with
    | nil => rfl
    | cons r rest2 =>
      simp only [strJoin, joinChar, List.map, str_data_append, ih]

lemma isPrefixOf_self_append (l t : List Char) : l.isPrefixOf (l ++ t) = true := by
  induction l with
  | nil => simp
  | cons a as ih => simp [List.isPrefixOf_cons₂, ih]

lemma mapM_render_concrete (rs : List String) :
    (rs.map RenderablePiece.concrete).mapM RenderablePiece.render = .ok rs := by
  induction rs with
  | nil => rfl
  | cons r rest ih =>
    rw [List.map_cons, List.mapM_cons, ih]
    rfl

lemma renderM_run (s : MetaStack) : MetaStack.renderM.run s = (s.render, s) := by
  obtain ⟨pieces, sep⟩ := s
  cases pieces with
  | nil => rfl
  | cons p ps =>
    cases h : (p :: ps).mapM RenderablePiece.render with
    | error e =>
      simp only [MetaStack.renderM, MetaStack.render, StateT.run, bind, StateT.bind, get,
        getThe, MonadStateOf.get, StateT.get, pure, StateT.pure, List.isEmpty_cons, h]
      rfl
    | ok rs =>
      simp only [MetaStack.renderM, MetaStack.render, StateT.run, bind, StateT.bind, get,
        getThe, MonadStateOf.get, StateT.get, pure, StateT.pure, List.isEmpty_cons, h]
      rfl

/-- C2: the claim says a stack constructed without a separator argument has
separator `"\n"` (the single newline U+000A); the code's default
(`default="\\n"` in `core.py` line 131) is the two-character string
backslash–n.  This theorem records what the code actually does at that
input. -/
theorem default_separator_is_backslash_n :
    MetaStack.mkDefault.separator.data = ['\\', 'n']
    ∧ MetaStack.mkDefault.separator ≠ "\n"
    ∧ MetaStack.mkDefault.separator.length = 2 := by
  refine ⟨rfl, ?_, rfl⟩
  decide

/-- C4: rendering a stack whose pieces list is empty returns the empty
string — not the separator and not an error — for every separator. -/
theorem render_empty_stack (sep : String) :
    (MetaStack.mk [] sep).render = .ok "" := rfl

/-- C5: `add_piece` grows `pieces` by exactly one, keeps every previously
present element at its former position, and puts the new piece last. -/
theorem add_piece_appends (s : MetaStack) (x : RenderablePiece) :
    (s.add_piece x).pieces.length = s.pieces.length + 1
    ∧ (s.add_piece x).pieces.take s.pieces.length = s.pieces
    ∧ (s.add_piece x).pieces.getLast? = some x
    ∧ (s.add_piece x).separator = s.separator := by
  refine ⟨by simp [MetaStack.add_piece], ?_, ?_, rfl⟩
  · simp [MetaStack.add_piece, List.take_left]
  · simp [MetaStack.add_piece]

/-- C7: `generate_output_from_metastack` returns exactly `stack.render()`:
it is pure delegation, so a success comes back unchanged and an error
raised inside `render` propagates unmodified. -/
theorem generate_output_delegates (s : MetaStack) :
    generate_output_from_metastack s = s.render
    ∧ (∀ e : PyError, s.render = .error e → generate_output_from_metastack s = .error e)
    ∧ (∀ out : String, s.render = .ok out → generate_output_from_metastack s = .ok out) :=
  ⟨rfl, fun _ h => h, fun _ h => h⟩

/-- C8: invoking `render` on an instance whose type never supplied an
override raises `NotImplementedError` whose message begins with (hence
names) that type's name. -/
theorem render_no_override_raises (className : String) :
    (RenderablePiece.noOverride className).render
      = .error (.notImplementedError (className ++ " must implement render() method"))
    ∧ (∀ msg : String,
        (RenderablePiece.noOverride className).render
            = .error (.notImplementedError msg) →
          strStarts className msg = true) := by
  refine ⟨rfl, fun msg h => ?_⟩
  have hmsg : msg = className ++ " must implement render() method" := by
    cases h' : (RenderablePiece.noOverride className).render with
    | error e =>
      rw [h'] at h
      cases h' : e
      · simp_all [RenderablePiece.render]
    | ok r => simp [RenderablePiece.render] at h'
  subst hmsg
  simp [strStarts, str_data_append, isPrefixOf_self_append]

lemma pyListInsert_length (l : List α) (i : Int) (x : α) :
    (pyListInsert l i x).length = l.length + 1 := by
  simp only [pyListInsert]
  split_ifs <;>
    simp [List.length_append, List.length_take, List.length_cons, List.length_drop] <;>
    omega

lemma pyListInsert_zero (l : List α) (x : α) : pyListInsert l 0 x = x :: l := by
  simp only [pyListInsert]
  split_ifs <;> first
    | omega
    | simp

lemma pyListInsert_at_length (l : List α) (x : α) :
    pyListInsert l (l.length : Int) x = l ++ [x] := by
  simp only [pyListInsert]
  split_ifs <;> first
    | omega
    | simp

lemma pyListInsert_big (l : List α) (i : Int) (x : α) (h : (l.length : Int) < i) :
    pyListInsert l i x = l ++ [x] := by
  simp only [pyListInsert]
  split_ifs <;> first
    | omega
    | simp

lemma pyListInsert_neg_one (l : List α) (x : α) :
    pyListInsert l (-1) x = l.dropLast ++ x :: l.drop (l.length - 1) := by
  simp only [pyListInsert]
  have hd : l.dropLast = l.take (l.length - 1) := List.dropLast_eq_take l
  split_ifs with h1 h2 h3 <;> try omega
  · have he : l.length = 0 := by omega
    rw [List.length_eq_zero] at he
    subst he
    simp
  · have ht : (-1 + (l.length : Int)).toNat = l.length - 1 := by omega
    rw [ht, hd]

lemma pyListInsert_below (l : List α) (i : Int) (x : α) (h : i < -(l.length : Int)) :
    pyListInsert l i x = x :: l := by
  simp only [pyListInsert]
  split_ifs <;> first
    | omega
    | simp

/-- C10: `insert_piece` is total: for every integer index it succeeds (the
embedded operation has no error outcome, matching Python `list.insert`) and
grows `pieces` by exactly one; an index beyond the length places the piece
last, index `-1` places it just before the former last element, and an index
below `-len(pieces)` places it first. -/
theorem insert_piece_total_clamps (s : MetaStack) (x : RenderablePiece) (i : Int) :
    (s.insert_piece i x).pieces.length = s.pieces.length + 1
    ∧ ((s.pieces.length : Int) < i → (s.insert_piece i x).pieces = s.pieces ++ [x])
    ∧ (s.insert_piece (-1) x).pieces
        = s.pieces.dropLast ++ x :: s.pieces.drop (s.pieces.length - 1)
    ∧ (i < -(s.pieces.length : Int) → (s.insert_piece i x).pieces = x :: s.pieces) :=
  ⟨pyListInsert_length s.pieces i x,
   fun h => pyListInsert_big s.pieces i x h,
   pyListInsert_neg_one s.pieces x,
   fun h => pyListInsert_below s.pieces i x h⟩

/-- C6: inserting at index 0 on a non-empty stack makes the new piece the
first element and shifts every other element one position later; and for
EVERY stack (the empty one included), inserting at index `len(pieces)`
leaves the stack in exactly the state `add_piece` would. -/
theorem insert_piece_zero_and_at_length (s : MetaStack) (x : RenderablePiece) :
    (s.pieces ≠ [] → (s.insert_piece 0 x).pieces = x :: s.pieces)
    ∧ s.insert_piece (s.pieces.length : Int) x = s.add_piece x := by
  refine ⟨fun _ => ?_, ?_⟩
  · simp [MetaStack.insert_piece, pyListInsert_zero]
  · simp [MetaStack.insert_piece, MetaStack.add_piece, pyListInsert_at_length]

/-- Witness for C6 at a concrete non-empty stack, discharging the
non-emptiness assumption of the index-0 clause. -/
theorem insert_piece_zero_and_at_length_witness :
    ((MetaStack.mk [.concrete "a"] ",").insert_piece 0 (.concrete "b")).pieces
        = .concrete "b" :: (MetaStack.mk [.concrete "a"] ",").pieces
    ∧ (MetaStack.mk [.concrete "a"] ",").insert_piece
          ((MetaStack.mk [.concrete "a"] ",").pieces.length : Int) (.concrete "b")
        = (MetaStack.mk [.concrete "a"] ",").add_piece (.concrete "b") :=
  have h := insert_piece_zero_and_at_length (MetaStack.mk [.concrete "a"] ",")
    (.concrete "b")
  ⟨h.1 (by decide), h.2⟩

/-- C3 counterexample: the claim says an out-of-range index (here 5 on an
empty stack) signals an index error and leaves `pieces` unmodified; the
code's `insert_piece` delegates to `list.insert`, which clamps, so the call
succeeds and `pieces` changes. -/
theorem insert_piece_out_of_range_cex :
    ((MetaStack.mkDefault.insert_piece 5 (.concrete "x")).pieces
        = [.concrete "x"])
    ∧ (MetaStack.mkDefault.insert_piece 5 (.concrete "x")).pieces
        ≠ MetaStack.mkDefault.pieces := by
  refine ⟨by decide, by decide⟩

/-- C3 as amended: `insert_piece` with index < 0 or index > `len(pieces)`
does not signal an error (the operation is total); it inserts the piece at
the clamped position, so `pieces` always grows by one and is never left
unmodified. -/
theorem insert_piece_out_of_range_inserts (s : MetaStack) (x : RenderablePiece)
    (i : Int) (_h : i < 0 ∨ (s.pieces.length : Int) < i) :
    (s.insert_piece i x).pieces.length = s.pieces.length + 1
    ∧ (s.insert_piece i x).pieces ≠ s.pieces := by
  have hl : (s.insert_piece i x).pieces.length = s.pieces.length + 1 :=
    pyListInsert_length s.pieces i x
  refine ⟨hl, fun he => ?_⟩
  rw [he] at hl
  omega

/-- Witness for the amended C3 at a concrete out-of-range index. -/
theorem insert_piece_out_of_range_inserts_witness :
    ((-7 : Int) < 0 ∨ ((MetaStack.mk [.concrete "a", .concrete "b"] ",").pieces.length : Int) < -7)
    ∧ (((MetaStack.mk [.concrete "a", .concrete "b"] ",").insert_piece (-7) (.concrete "x")).pieces.length
          = (MetaStack.mk [.concrete "a", .concrete "b"] ",").pieces.length + 1
        ∧ ((MetaStack.mk [.concrete "a", .concrete "b"] ",").insert_piece (-7) (.concrete "x")).pieces
          ≠ (MetaStack.mk [.concrete "a", .concrete "b"] ",").pieces) :=
  ⟨Or.inl (by decide),
   insert_piece_out_of_range_inserts (MetaStack.mk [.concrete "a", .concrete "b"] ",")
     (.concrete "x") (-7) (Or.inl (by decide))⟩

/-- C9: the body of `MetaStack.render` performs no writes: running it
leaves `pieces` and `separator` exactly as they were, its value is the pure
function `MetaStack.render` of the fields, and a second call on the
resulting state returns the identical string. -/
theorem render_mutates_nothing (s : MetaStack) :
    (MetaStack.renderM.run s).2 = s
    ∧ (MetaStack.renderM.run s).2.pieces = s.pieces
    ∧ (MetaStack.renderM.run s).2.separator = s.separator
    ∧ (MetaStack.renderM.run s).1 = s.render
    ∧ (MetaStack.renderM.run ((MetaStack.renderM.run s).2)).1
        = (MetaStack.renderM.run s).1 := by
  simp [renderM_run]

/-- C1 counterexample: with separator `"a"` and two pieces rendering `"a"`
and `"b"`, the output is `"aab"`: the separator occurs twice, not
`len(pieces) - 1 = 1` times, and it IS a prefix of the output, so the
occurrence-count and prefix clauses of the claim are false as stated. -/
theorem render_separator_collision_cex :
    (MetaStack.mk [.concrete "a", .concrete "b"] "a").render = .ok "aab"
    ∧ ¬ (strOccCount "a" "aab"
          = (MetaStack.mk [.concrete "a", .concrete "b"] "a").pieces.length - 1)
    ∧ strStarts "a" "aab" = true :=
  ⟨rfl, by decide, by decide⟩

lemma render_concrete (sep : String) (rs : List String) :
    (MetaStack.mk (rs.map RenderablePiece.concrete) sep).render = .ok (strJoin sep rs) := by
  unfold MetaStack.render
  split
  · next hemp =>
      have hnil : rs = [] := by
        cases rs with
        | nil => rfl
        | cons r rest => simp at hemp
      subst hnil
      rfl
  · next hemp =>
      rw [mapM_render_concrete]
      rfl

lemma countOccAux_single (c : Char) (l : List Char) : countOccAux [c] l = l.count c := by
  induction l with
  | nil => rfl
  | cons a rest ih =>
    rw [countOccAux, ih, List.count_cons]
    by_cases h : a = c
    · subst h
      have h1 : ([a] : List Char).isPrefixOf (a :: rest) = true := by
        simp [List.isPrefixOf_cons₂]
      rw [h1]
      simp [Nat.add_comm]
    · have h1 : ([c] : List Char).isPrefixOf (a :: rest) = false := by
        simp only [List.isPrefixOf_cons₂, List.isPrefixOf_nil_left, Bool.and_true]
        exact beq_eq_false_iff_ne.mpr fun hh => h hh.symm
      rw [h1]
      simp [h]

lemma count_joinChar (c : Char) :
    ∀ es : List (List Char), (∀ e ∈ es, c ∉ e) → es ≠ [] →
      (joinChar [c] es).count c = es.length - 1 := by
  intro es
  induction es with
  | nil => intro _ hne; exact absurd rfl hne
  | cons e rest ih =>
    intro hno hne
    cases rest with
    | nil =>
      have hce : c ∉ e := hno e (List.mem_cons_self e [])
      simp [joinChar, List.count_eq_zero.mpr hce]
    | cons r rest2 =>
      have hno2 : ∀ x ∈ r :: rest2, c ∉ x := fun x hx => hno x (List.mem_cons_of_mem e hx)
      have ih2 := ih hno2 (List.cons_ne_nil r rest2)
      have hce : c ∉ e := hno e (List.mem_cons_self e _)
      simp only [joinChar, List.count_append, List.count_eq_zero.mpr hce, ih2]
      simp
      omega

lemma single_isPrefixOf_cons (c a : Char) (l : List Char) :
    ([c]).isPrefixOf (a :: l) = (c == a) := by
  simp [List.isPrefixOf_cons₂]

lemma joinChar_cons_eq (sep e : List Char) (rest : List (List Char)) :
    ∃ t, joinChar sep (e :: rest) = e ++ t := by
  cases rest with
  | nil => exact ⟨[], by simp [joinChar]⟩
  | cons r rest2 => exact ⟨sep ++ joinChar sep (r :: rest2), by simp [joinChar, List.append_assoc]⟩

lemma joinChar_starts_false (c : Char) (es : List (List Char))
    (hno : ∀ e ∈ es, c ∉ e) (hnn : ∀ e ∈ es, e ≠ []) (hne : es ≠ []) :
    ([c]).isPrefixOf (joinChar [c] es) = false := by
  obtain ⟨e, rest, rfl⟩ : ∃ e rest, es = e :: rest := by
    cases es with
    | nil => exact absurd rfl hne
    | cons e rest => exact ⟨e, rest, rfl⟩
  obtain ⟨t, ht⟩ := joinChar_cons_eq [c] e rest
  rw [ht]
  have hne2 : e ≠ [] := hnn e (List.mem_cons_self _ _)
  obtain ⟨a, e2, rfl⟩ := List.exists_cons_of_ne_nil hne2
  rw [List.cons_append, single_isPrefixOf_cons]
  have hca : c ≠ a := fun hh => hno (a :: e2) (List.mem_cons_self _ _) (hh ▸ List.mem_cons_self a e2)
  exact beq_eq_false_iff_ne.mpr hca

lemma joinChar_concat (sep : List Char) :
    ∀ (xs : List (List Char)) (y : List Char), xs ≠ [] →
      joinChar sep (xs ++ [y]) = joinChar sep xs ++ sep ++ y := by
  intro xs
  induction xs with
  | nil => intro y h; exact absurd rfl h
  | cons x xs2 ih =>
    intro y _
    cases xs2 with
    | nil => simp [joinChar, List.append_assoc]
    | cons x2 xs3 =>
      have ih2 := ih y (List.cons_ne_nil _ _)
      have step1 : joinChar sep ((x :: x2 :: xs3) ++ [y])
          = x ++ sep ++ joinChar sep ((x2 :: xs3) ++ [y]) := rfl
      have step2 : joinChar sep (x :: x2 :: xs3)
          = x ++ sep ++ joinChar sep (x2 :: xs3) := rfl
      rw [step1, ih2, step2]
      simp [List.append_assoc]

lemma single_isSuffixOf_concat (c d : Char) (l : List Char) :
    ([c]).isSuffixOf (l ++ [d]) = (c == d) := by
  simp only [List.isSuffixOf, List.reverse_append, List.reverse_cons, List.reverse_nil,
    List.nil_append, List.cons_append]
  exact single_isPrefixOf_cons c d l.reverse

lemma joinChar_ends_false (c : Char) (es : List (List Char))
    (hno : ∀ e ∈ es, c ∉ e) (hnn : ∀ e ∈ es, e ≠ []) (hne : es ≠ []) :
    ([c]).isSuffixOf (joinChar [c] es) = false := by
  rcases List.eq_nil_or_concat es with rfl | ⟨xs, y, hes⟩
  · exact absurd rfl hne
  · rw [List.concat_eq_append] at hes
    subst hes
    have hy : y ∈ xs ++ [y] := List.mem_append_right _ (List.mem_cons_self _ _)
    have hyn : y ≠ [] := hnn y hy
    have hyc : c ∉ y := hno y hy
    obtain ⟨y2, d, hy2⟩ := (List.eq_nil_or_concat y).resolve_left hyn
    rw [List.concat_eq_append] at hy2
    subst hy2
    have hcd : c ≠ d := fun hh => hyc (hh ▸ List.mem_append_right _ (List.mem_cons_self _ _))
    cases xs with
    | nil =>
      simp only [List.nil_append, joinChar]
      rw [single_isSuffixOf_concat]
      exact beq_eq_false_iff_ne.mpr hcd
    | cons x xs2 =>
      rw [joinChar_concat [c] (x :: xs2) (y2 ++ [d]) (List.cons_ne_nil _ _)]
      have hassoc : joinChar [c] (x :: xs2) ++ [c] ++ (y2 ++ [d])
          = (joinChar [c] (x :: xs2) ++ [c] ++ y2) ++ [d] := by
        simp [List.append_assoc]
      rw [hassoc, single_isSuffixOf_concat]
      exact beq_eq_false_iff_ne.mpr hcd

/-- C1 as amended: rendering a stack whose pieces render to the strings
`rs` returns the empty string when `rs` is empty and otherwise the join of
`rs` with the separator inserted between consecutive results (so exactly
`len(rs) - 1` copies are inserted); the claim's occurrence-count and
prefix/suffix clauses hold under the additional assumptions the
counterexample shows are needed — the separator is a single character that
occurs in no piece's render, and every piece's render is non-empty. -/
theorem render_joins_with_separator (sep : String) (rs : List String) :
    (MetaStack.mk (rs.map RenderablePiece.concrete) sep).render = .ok (strJoin sep rs)
    ∧ (∀ c : Char, sep.data = [c] → (∀ r ∈ rs, c ∉ r.data) → (∀ r ∈ rs, r.data ≠ []) →
        rs ≠ [] →
          strOccCount sep (strJoin sep rs) = rs.length - 1
          ∧ strStarts sep (strJoin sep rs) = false
          ∧ strEnds sep (strJoin sep rs) = false) := by
  refine ⟨render_concrete sep rs, ?_⟩
  intro c hsep hno hnn hne
  have hmap_ne : rs.map String.data ≠ [] := by
    cases rs with
    | nil => exact absurd rfl hne
    | cons r rest => simp
  have hno2 : ∀ e ∈ rs.map String.data, c ∉ e := by
    intro e he
    obtain ⟨r, hr, rfl⟩ := List.mem_map.mp he
    exact hno r hr
  have hnn2 : ∀ e ∈ rs.map String.data, e ≠ [] := by
    intro e he
    obtain ⟨r, hr, rfl⟩ := List.mem_map.mp he
    exact hnn r hr
  have hdata : (strJoin sep rs).data = joinChar [c] (rs.map String.data) := by
    rw [strJoin_data, hsep]
  refine ⟨?_, ?_, ?_⟩
  · simp only [strOccCount, hdata, hsep]
    rw [countOccAux_single, count_joinChar c (rs.map String.data) hno2 hmap_ne]
    simp
  · simp only [strStarts, hdata, hsep]
    exact joinChar_starts_false c _ hno2 hnn2 hmap_ne
  · simp only [strEnds, hdata, hsep]
    exact joinChar_ends_false c _ hno2 hnn2 hmap_ne

/-- Witness for the amended C1 at separator `"\n"` and renders `"x"`, `"y"`. -/
theorem render_joins_with_separator_witness :
    (MetaStack.mk (["x", "y"].map RenderablePiece.concrete) "\n").render
        = .ok (strJoin "\n" ["x", "y"])
    ∧ strOccCount "\n" (strJoin "\n" ["x", "y"]) = 1
    ∧ strStarts "\n" (strJoin "\n" ["x", "y"]) = false
    ∧ strEnds "\n" (strJoin "\n" ["x", "y"]) = false :=
  have h := render_joins_with_separator "\n" ["x", "y"]
  have h2 := h.2 '\n' (by decide) (by decide) (by decide) (by decide)
  ⟨h.1, h2.1, h2.2.1, h2.2.2⟩
